import Mathlib

/-!
Verification of the hierarchical query cache (`query-with-cache`).

The development shallowly embeds the repository's two cache backends and the
fetch orchestrator:

* `CacheStoreInMemory` (src/cache-store-in-memory.ts): a hierarchical store.
  The JS `Map<string | number, CacheStoreMap | CacheEntry>` nodes are embedded
  as association lists `List (String × Val)`; key segments are embedded as
  `String` (in JS a numeric segment and its decimal string are distinct map
  keys, but no property below depends on that distinction).
* `CacheStoreMMKV` (src/query-with-cache.ts, class CacheStoreMMKV): a flat
  persistent store.  The physical key/value store is embedded at two levels:
  the main model keeps the parsed JSON value of each record
  (`List (String × Json)`), and a separate string-level model of `get`
  (`CacheStoreMMKV.getS`) keeps the raw record text and runs a model of
  `JSON.parse`, which is needed to analyse malformed persisted records.
* `queryWithCache` (src/query-with-cache.ts): embedded as a pure function of
  the single cache read, the settled fetch outcome (the one `await` point) and
  the callback configuration, returning the ordered trace of observable events
  (callback invocations, fetch start, cache writes), the call's own
  success/failure, and the updated store.

JS timestamps and durations are embedded as `Int` (JS numbers are floats, but
every time value handled by the code is integral; `NaN` propagation through
comparisons, which always yields `false`, is reproduced where it matters).
JS `null`/`undefined` results are embedded as `none : Option Json`.
The library default times (`cache.constants.ts` is not part of the sources,
and no property depends on their concrete values) are parameters `defSt`,
`defCt` of the model.  Logging and the GC interval timer are elided: they do
not affect any value or state examined here.
-/

/-- JSON-representable JS values (numbers restricted to integers; the code's
time arithmetic is integral and floats are outside the embedding). -/
inductive Json where
  | null : Json
  | bool (b : Bool) : Json
  | num (n : Int) : Json
  | str (s : String) : Json
  | arr (xs : List Json) : Json
  | obj (fields : List (String × Json)) : Json

/-- First-match lookup in an association list, the behaviour of JS
`Map.prototype.get` (JS maps have unique keys; the model keeps the
first-match convention). -/
def mget {α : Type} : List (String × α) → String → Option α
  | [], _ => none
  | (k', v) :: rest, k => if k' = k then some v else mget rest k

/-- In-place update or append, the behaviour of JS `Map.prototype.set`
(an existing binding keeps its position, a new one is appended). -/
def mset {α : Type} : List (String × α) → String → α → List (String × α)
  | [], k, v => [(k, v)]
  | (k', v') :: rest, k, v =>
    if k' = k then (k, v) :: rest else (k', v') :: mset rest k v

/-- Removal of the binding at a key, the behaviour of JS
`Map.prototype.delete`. -/
def mdel {α : Type} : List (String × α) → String → List (String × α)
  | [], _ => []
  | (k', v') :: rest, k => if k' = k then rest else (k', v') :: mdel rest k

mutual

/-- `fast-deep-equal`, the deep value equality used by the orchestrator:
primitives by `===`; arrays by length and pointwise recursion; objects by
field count, with each field of the left operand looked up in the right one
(field order is irrelevant). -/
def isEqualJson : Json → Json → Bool
  | Json.null, Json.null => true
  | Json.bool a, Json.bool b => a == b
  | Json.num a, Json.num b => a == b
  | Json.str a, Json.str b => a == b
  | Json.arr as, Json.arr bs => as.length == bs.length && isEqualArr as bs
  | Json.obj afs, Json.obj bfs => afs.length == bfs.length && isEqualFields afs bfs
  | _, _ => false

def isEqualArr : List Json → List Json → Bool
  | [], _ => true
  | _ :: _, [] => false
  | a :: as, b :: bs => isEqualJson a b && isEqualArr as bs

def isEqualFields : List (String × Json) → List (String × Json) → Bool
  | [], _ => true
  | (k, v) :: rest, bfs => isEqualField k v bfs && isEqualFields rest bfs

def isEqualField : String → Json → List (String × Json) → Bool
  | _, _, [] => false
  | k, v, (k', w) :: rest => if k' = k then isEqualJson v w else isEqualField k v rest

end

/-- A stored cache entry (src/cache.types.ts, `CacheEntry<T>`).  `data` is the
cached JSON value; the three time fields are JS millisecond numbers. -/
structure CacheEntry where
  data : Json
  timestamp : Int
  staleTime : Int
  cacheTime : Int

/-- The store options that affect values (src/cache.types.ts, `CacheOptions`);
`gcInterval`, `debug` and `logger` are elided (they only control the sweep
timer and logging). -/
structure CacheOptions where
  defaultStaleTime : Option Int
  defaultCacheTime : Option Int

/-- The `a ?? b ?? c` resolution `perCall ?? options.default ?? LIBRARY_DEFAULT`
used by both backends' `set`. -/
def resolveTime (perCall optDefault : Option Int) (libDefault : Int) : Int :=
  perCall.getD (optDefault.getD libDefault)

namespace CacheStoreInMemory

/-- A value stored in a node's map: a child node or a cache entry
(src/cache-store-in-memory.ts, `CacheStoreMap`). -/
inductive Val where
  | tree (m : List (String × Val)) : Val
  | entry (e : CacheEntry) : Val

/-- The root map of the hierarchical store. -/
def Store := List (String × Val)

/-- The reserved map key under which a node's own entry is stored. -/
def marker : String := "cacheEntry"

/-- `getNode`: walks the key parts; a missing child or a non-map value ends
the walk with `undefined` (embedded as `none`). -/
def getNode : Option Val → List String → Option Val
  | c, [] => c
  | some (Val.tree m), p :: rest => getNode (mget m p) rest
  | _, _ :: _ => none

/-- The body of `set` after the empty-key guard: `getOrCreateNode` walks the
key, creating missing children, then stores the entry under `"cacheEntry"` in
the final node.  If the walk runs into a stored entry (a non-`Map` value) the
JS code calls `Map` methods on it and throws a `TypeError`; this is embedded
as `none`. -/
def getOrCreateSet : List (String × Val) → List String → CacheEntry →
    Option (List (String × Val))
  | m, [], e => some (mset m marker (Val.entry e))
  | m, p :: rest, e =>
    match mget m p with
    | some (Val.entry _) => none
    | some (Val.tree m2) =>
      (getOrCreateSet m2 rest e).map (fun m2' => mset m p (Val.tree m2'))
    | none =>
      (getOrCreateSet [] rest e).map (fun m2' => mset m p (Val.tree m2'))

/-- `CacheStoreInMemory.set`.  An empty key is rejected (logged, no-op).
Returns `none` when the JS code would throw (see `getOrCreateSet`). -/
def set (S : Store) (key : List String) (data : Json)
    (staleTime cacheTime : Option Int) (opts : CacheOptions)
    (defSt defCt now : Int) : Option Store :=
  if key = [] then some S
  else getOrCreateSet S key
    { data := data
      timestamp := now
      staleTime := resolveTime staleTime opts.defaultStaleTime defSt
      cacheTime := resolveTime cacheTime opts.defaultCacheTime defCt }

/-- The tail of `get` applied to the node `getNode` returned: a missing node,
a non-map node, or a node without a `"cacheEntry"` binding is a miss
`{data: null, stale: false}`; otherwise the binding's data is returned with
`stale = now - timestamp > staleTime`.  When the `"cacheEntry"` binding holds
a child map (possible when a longer key used the literal segment
`"cacheEntry"`), the JS code reads `undefined` entry fields and its `NaN`
staleness comparison yields `false`; both JS `null` and `undefined` data are
embedded as `none`. -/
def readNode : Option Val → Int → Option Json × Bool
  | some (Val.tree m), now =>
    match mget m marker with
    | some (Val.entry e) => (some e.data, now - e.timestamp > e.staleTime)
    | some (Val.tree _) => (none, false)
    | none => (none, false)
  | _, _ => (none, false)

/-- `CacheStoreInMemory.get`: walk to the node at the key, then read its
entry (see `readNode`). -/
def get (S : Store) (key : List String) (now : Int) : Option Json × Bool :=
  readNode (getNode (some (Val.tree S)) key) now

/-- The body of `invalidate`: delete the final key segment's binding from the
node at the key's parent path; a missing or non-map parent is a no-op. -/
def delAtPath : List (String × Val) → List String → String → List (String × Val)
  | m, [], lastKey => mdel m lastKey
  | m, p :: rest, lastKey =>
    match mget m p with
    | some (Val.tree m2) => mset m p (Val.tree (delAtPath m2 rest lastKey))
    | _ => m

/-- `CacheStoreInMemory.invalidate`.  For the empty key the JS code deletes
the binding at key `undefined` from the root map, which removes nothing. -/
def invalidate (S : Store) (key : List String) : Store :=
  if key = [] then S
  else delAtPath S key.dropLast (key.getLastD "")

/-- `cleanUpNode`: recurse into child maps; delete every entry whose
`now - timestamp > cacheTime`.  (JS `Map` iteration is insertion-ordered and
tolerates deleting the binding under the cursor.) -/
def cleanUpNode (now : Int) : List (String × Val) → List (String × Val)
  | [] => []
  | (k, Val.tree m) :: rest => (k, Val.tree (cleanUpNode now m)) :: cleanUpNode now rest
  | (k, Val.entry e) :: rest =>
    if now - e.timestamp > e.cacheTime then cleanUpNode now rest
    else (k, Val.entry e) :: cleanUpNode now rest

/-- `CacheStoreInMemory.cleanUp`. -/
def cleanUp (S : Store) (now : Int) : Store := cleanUpNode now S

end CacheStoreInMemory

namespace CacheStoreInMemory

mutual

/-- Well-formedness of a stored value: the uniqueness of JS `Map` keys,
and the fact that entry values are only ever stored under the reserved
`"cacheEntry"` key (`set` is the only writer of entries).  Every store
reachable through the API satisfies this. -/
def wfVal : Val → Bool
  | Val.tree m => wfMap m
  | Val.entry _ => true

/-- Well-formedness of a node map; see `wfVal`. -/
def wfMap : List (String × Val) → Bool
  | [] => true
  | (k, v) :: rest =>
    !(mget rest k).isSome &&
      (match v with
       | Val.entry _ => k == marker
       | Val.tree _ => true) &&
      wfVal v && wfMap rest

end

/-- The entry stored at exactly `key` (an observer used to state theorems):
the `"cacheEntry"` binding of the node reached by the key's path, when that
binding holds an entry. -/
def entryAtPath (S : Store) (key : List String) : Option CacheEntry :=
  match getNode (some (Val.tree S)) key with
  | some (Val.tree m) =>
    match mget m marker with
    | some (Val.entry e) => some e
    | _ => none
  | _ => none

end CacheStoreInMemory

namespace CacheStoreMMKV

/-- `keyToString`: the key segments joined with `":"` (JS `key.join(":")`;
numeric segments stringify the same way under both join and map lookup, so
segments are embedded as strings throughout). -/
def keyToString (key : List String) : String := String.intercalate ":" key

/-- The flat physical store, one record per joined key.  The main model keeps
each record's value in parsed form (`JSON.parse` of the stored text): `set`
only ever writes `JSON.stringify` of an entry object, and `JSON.stringify` /
`JSON.parse` round-trip JSON values.  Malformed record text, which has no
parsed form, is treated by the separate string-level model `getS` below. -/
def FlatStore := List (String × Json)

/-- The JSON object literal `{data, timestamp, staleTime, cacheTime}` that
`set` serializes. -/
def entryToJson (e : CacheEntry) : Json :=
  Json.obj [("data", e.data), ("timestamp", Json.num e.timestamp),
            ("staleTime", Json.num e.staleTime), ("cacheTime", Json.num e.cacheTime)]

/-- JS property read `j[k]` on a parsed record: `undefined` (embedded `none`)
unless `j` is an object with field `k`. -/
def getField : Json → String → Option Json
  | Json.obj fs, k => mget fs k
  | _, _ => none

/-- Numeric view of a property: JS arithmetic on a non-number field gives
`NaN`, and every `NaN` comparison is false; `none` marks that case. -/
def asNum : Option Json → Option Int
  | some (Json.num n) => some n
  | _ => none

/-- `CacheStoreMMKV.set`: empty keys rejected (logged, no-op); otherwise the
record at the joined key is overwritten with the serialized entry. -/
def set (S : FlatStore) (key : List String) (data : Json)
    (staleTime cacheTime : Option Int) (opts : CacheOptions)
    (defSt defCt now : Int) : FlatStore :=
  if key = [] then S
  else mset S (keyToString key)
    (entryToJson
      { data := data
        timestamp := now
        staleTime := resolveTime staleTime opts.defaultStaleTime defSt
        cacheTime := resolveTime cacheTime opts.defaultCacheTime defCt })

/-- `CacheStoreMMKV.get` on a store of parsed records: a missing record is a
miss; otherwise the record's `data` field is returned with
`stale = now - timestamp > staleTime` (false when either field is not a
number, the JS `NaN` comparison). -/
def get (S : FlatStore) (key : List String) (now : Int) : Option Json × Bool :=
  match mget S (keyToString key) with
  | none => (none, false)
  | some j =>
    (getField j "data",
     match asNum (getField j "timestamp"), asNum (getField j "staleTime") with
     | some ts, some st => decide (now - ts > st)
     | _, _ => false)

/-- JS `String.prototype.startsWith`. -/
def jsStartsWith (s pre : String) : Bool := pre.data.isPrefixOf s.data

/-- `CacheStoreMMKV.invalidate`: deletes every physical key that equals the
joined key, or that starts with `path + ":"`.  In the JS expression
`key.startsWith(path + ":")` the operand `path` is the key *array*, which JS
coerces with `Array.prototype.toString`, i.e. a **comma** join — not the
`":"` join used by `keyToString`. -/
def invalidate (S : FlatStore) (path : List String) : FlatStore :=
  let keyToDelete := keyToString path
  let pathToString := String.intercalate "," path
  S.filter (fun kv => !(kv.1 = keyToDelete || jsStartsWith kv.1 (pathToString ++ ":")))

/-- `CacheStoreMMKV.cleanUp`: deletes every record with
`now - timestamp > cacheTime` (`NaN` comparisons false, so records without
numeric time fields are kept). -/
def cleanUp (S : FlatStore) (now : Int) : FlatStore :=
  S.filter (fun kv =>
    match asNum (getField kv.2 "timestamp"), asNum (getField kv.2 "cacheTime") with
    | some ts, some ct => !decide (now - ts > ct)
    | _, _ => true)

end CacheStoreMMKV

/-- The argument object of `CacheStore.set` (src/cache.types.ts,
`SetCacheParams<T>`). -/
structure SetCacheParams where
  key : List String
  data : Json
  staleTime : Option Int
  cacheTime : Option Int

/-- The `CacheStore` interface as the orchestrator uses it: one `get` and one
`set` (src/cache.types.ts; `invalidate`, `cleanUp` and
`stopGarbageCollector` are never called by `queryWithCache`).  `get` returns
the data (`none` for JS `null`) and the stale flag. -/
structure CacheIface (σ : Type) where
  get : σ → List String → Option Json × Bool
  set : σ → SetCacheParams → σ

/-- Observable events of one `queryWithCache` call, in order: callback
invocations, the start of the fetch operation, and cache writes. -/
inductive Ev (ε : Type) where
  | onData (v : Json) : Ev ε
  | onIsFetching (b : Bool) : Ev ε
  | onError (e : ε) : Ev ε
  | fetchStart : Ev ε
  | cacheSet (p : SetCacheParams) : Ev ε

/-- JS truthiness of a cache read's `data` (`!cacheEntry.data`): `null` /
`undefined` (`none`), JSON `null`, `false`, `0` and `""` are falsy. -/
def jsTruthy : Option Json → Bool
  | none => false
  | some Json.null => false
  | some (Json.bool b) => b
  | some (Json.num n) => n != 0
  | some (Json.str s) => s != ""
  | some (Json.arr _) => true
  | some (Json.obj _) => true

/-- The cache read's `data` as the JS value passed to `isEqual`: a miss
returns JS `null`. -/
def jsonOfCached : Option Json → Json := fun d => d.getD Json.null

/-- `queryWithCache` (src/query-with-cache.ts).  The call is `async` with the
fetch operation as its only suspension point, so it is embedded as a pure
function of the cache read and the settled fetch outcome `queryFn`
(`Except.ok` = resolved, `Except.error` = rejected).  Callbacks are embedded
by presence flags and by the event trace; `onData` is mandatory in the source
and has no flag.  Returns (event trace, own completion, updated store):
`Except.error e` models the call rejecting with `e` (the no-`onError`
rethrow), after the `finally` block has run. -/
def queryWithCache {σ ε : Type} (iface : CacheIface σ) (queryKey : List String)
    (cacheExpirationTime cacheStoredTime : Option Int) (cache : σ)
    (queryFn : Except ε Json) (hasOnIsFetching hasOnError : Bool) :
    List (Ev ε) × Except ε Unit × σ :=
  let cacheEntry := iface.get cache queryKey
  let shouldCallIsFetching := !jsTruthy cacheEntry.1 && hasOnIsFetching
  let ev1 : List (Ev ε) :=
    if jsTruthy cacheEntry.1 then [Ev.onData (jsonOfCached cacheEntry.1)] else []
  if jsTruthy cacheEntry.1 && !cacheEntry.2 then
    (ev1, Except.ok (), cache)
  else
    let ev2 : List (Ev ε) := if shouldCallIsFetching then [Ev.onIsFetching true] else []
    let evFin : List (Ev ε) := if shouldCallIsFetching then [Ev.onIsFetching false] else []
    match queryFn with
    | Except.ok result =>
      let ev3 : List (Ev ε) :=
        if isEqualJson result (jsonOfCached cacheEntry.1) then [] else [Ev.onData result]
      let p : SetCacheParams :=
        { key := queryKey, data := result
          staleTime := cacheExpirationTime, cacheTime := cacheStoredTime }
      (ev1 ++ ev2 ++ [Ev.fetchStart] ++ ev3 ++ [Ev.cacheSet p] ++ evFin,
       Except.ok (), iface.set cache p)
    | Except.error e =>
      if hasOnError then
        (ev1 ++ ev2 ++ [Ev.fetchStart, Ev.onError e] ++ evFin, Except.ok (), cache)
      else
        (ev1 ++ ev2 ++ [Ev.fetchStart] ++ evFin, Except.error e, cache)

/-- JSON whitespace. -/
def isWsChar (c : Char) : Bool := c = ' ' || c = '\t' || c = '\n' || c = '\r'

def skipWs : List Char → List Char
  | [] => []
  | c :: cs => if isWsChar c then skipWs cs else c :: cs

def hexVal (c : Char) : Option Nat :=
  if '0' ≤ c ∧ c ≤ '9' then some (c.toNat - '0'.toNat)
  else if 'a' ≤ c ∧ c ≤ 'f' then some (c.toNat - 'a'.toNat + 10)
  else if 'A' ≤ c ∧ c ≤ 'F' then some (c.toNat - 'A'.toNat + 10)
  else none

/-- Body of a JSON string after the opening quote: characters up to the
closing quote, with the standard escapes. -/
def parseStringBody (acc : List Char) : List Char → Option (String × List Char)
  | [] => none
  | '"' :: rest => some (String.mk acc.reverse, rest)
  | '\\' :: rest =>
    match rest with
    | [] => none
    | 'u' :: a :: b :: c :: d :: rest2 =>
      match hexVal a, hexVal b, hexVal c, hexVal d with
      | some ha, some hb, some hc, some hd =>
        parseStringBody (Char.ofNat (((ha * 16 + hb) * 16 + hc) * 16 + hd) :: acc) rest2
      | _, _, _, _ => none
    | e :: rest2 =>
      match e with
      | '"' => parseStringBody ('"' :: acc) rest2
      | '\\' => parseStringBody ('\\' :: acc) rest2
      | '/' => parseStringBody ('/' :: acc) rest2
      | 'n' => parseStringBody ('\n' :: acc) rest2
      | 't' => parseStringBody ('\t' :: acc) rest2
      | 'r' => parseStringBody ('\r' :: acc) rest2
      | 'b' => parseStringBody (Char.ofNat 8 :: acc) rest2
      | 'f' => parseStringBody (Char.ofNat 12 :: acc) rest2
      | _ => none
  | c :: rest => parseStringBody (c :: acc) rest
termination_by cs => cs.length
decreasing_by all_goals simp_wf <;> omega

/-- Decimal digit run (at least the first character is known to be a digit). -/
def parseDigitsAux (acc : Nat) : List Char → Nat × List Char
  | [] => (acc, [])
  | c :: cs => if c.isDigit then parseDigitsAux (acc * 10 + (c.toNat - 48)) cs else (acc, c :: cs)

mutual

/-- A model of `JSON.parse` on the character list of the record text (fuelled
recursive descent; fractional and exponent number forms are outside the
embedding, whose numbers are integers). -/
def parseVal : Nat → List Char → Option (Json × List Char)
  | 0, _ => none
  | fuel + 1, cs =>
    match skipWs cs with
    | 'n' :: 'u' :: 'l' :: 'l' :: rest => some (Json.null, rest)
    | 't' :: 'r' :: 'u' :: 'e' :: rest => some (Json.bool true, rest)
    | 'f' :: 'a' :: 'l' :: 's' :: 'e' :: rest => some (Json.bool false, rest)
    | '"' :: rest => (parseStringBody [] rest).map (fun sv => (Json.str sv.1, sv.2))
    | '[' :: rest =>
      (match skipWs rest with
       | ']' :: rest2 => some (Json.arr [], rest2)
       | _ => (parseArrItems fuel rest).map (fun xs => (Json.arr xs.1, xs.2)))
    | '{' :: rest =>
      (match skipWs rest with
       | '}' :: rest2 => some (Json.obj [], rest2)
       | _ => (parseObjItems fuel rest).map (fun fs => (Json.obj fs.1, fs.2)))
    | '-' :: rest =>
      (match rest with
       | c :: _ =>
         if c.isDigit then
           (fun p => some (Json.num (-(p.1 : Int)), p.2)) (parseDigitsAux 0 rest)
         else none
       | [] => none)
    | c :: rest =>
      if c.isDigit then
        (fun p => some (Json.num (p.1 : Int), p.2)) (parseDigitsAux 0 (c :: rest))
      else none
    | [] => none

/-- Elements of a non-empty JSON array after `[`. -/
def parseArrItems : Nat → List Char → Option (List Json × List Char)
  | 0, _ => none
  | fuel + 1, cs =>
    match parseVal fuel cs with
    | none => none
    | some (j, rest) =>
      match skipWs rest with
      | ',' :: rest2 => (parseArrItems fuel rest2).map (fun p => (j :: p.1, p.2))
      | ']' :: rest2 => some ([j], rest2)
      | _ => none

/-- Members of a non-empty JSON object after `{`. -/
def parseObjItems : Nat → List Char → Option (List (String × Json) × List Char)
  | 0, _ => none
  | fuel + 1, cs =>
    match skipWs cs with
    | '"' :: rest =>
      (match parseStringBody [] rest with
       | none => none
       | some (k, rest2) =>
         match skipWs rest2 with
         | ':' :: rest3 =>
           (match parseVal fuel rest3 with
            | none => none
            | some (v, rest4) =>
              match skipWs rest4 with
              | ',' :: rest5 => (parseObjItems fuel rest5).map (fun p => ((k, v) :: p.1, p.2))
              | '}' :: rest5 => some ([(k, v)], rest5)
              | _ => none)
         | _ => none)
    | _ => none

end

/-- `JSON.parse` of a whole record text: one value consuming the full input;
`none` embeds the thrown `SyntaxError`. -/
def Json.parse (s : String) : Option Json :=
  match parseVal (s.data.length + 1) s.data with
  | some (j, rest) => if skipWs rest = [] then some j else none
  | none => none

/-- String-level model of `CacheStoreMMKV.get`: the record value is the raw
stored text.  The code checks only `!storedValue` (so a missing record or the
empty, falsy, string is a miss) and then runs `JSON.parse(storedValue)` with
no exception handling: a record text that does not parse makes `get` throw
the `SyntaxError`, embedded as `Except.error ()`. -/
def CacheStoreMMKV.getS (S : List (String × String)) (key : List String)
    (now : Int) : Except Unit (Option Json × Bool) :=
  match mget S (CacheStoreMMKV.keyToString key) with
  | none => Except.ok (none, false)
  | some s =>
    if s = "" then Except.ok (none, false)
    else
      match Json.parse s with
      | none => Except.error ()
      | some j =>
        Except.ok (CacheStoreMMKV.getField j "data",
          match CacheStoreMMKV.asNum (CacheStoreMMKV.getField j "timestamp"),
              CacheStoreMMKV.asNum (CacheStoreMMKV.getField j "staleTime") with
          | some ts, some st => decide (now - ts > st)
          | _, _ => false)

/-- The in-memory backend packaged as the interface the orchestrator consumes,
at a fixed clock instant `now` (`Date.now()` during the call).  On the
pathological stores where the JS `set` would throw, the interface leaves the
store unchanged (the orchestrator theorems below never depend on that case). -/
def CacheStoreInMemory.iface (opts : CacheOptions) (defSt defCt now : Int) :
    CacheIface CacheStoreInMemory.Store where
  get := fun S k => CacheStoreInMemory.get S k now
  set := fun S p =>
    (CacheStoreInMemory.set S p.key p.data p.staleTime p.cacheTime opts defSt defCt now).getD S

/-- Whether an event is an `onData` invocation. -/
def isDataEv {ε : Type} : Ev ε → Bool
  | Ev.onData _ => true
  | _ => false

/-- Whether an event is an `onIsFetching` invocation. -/
def isFetchingEv {ε : Type} : Ev ε → Bool
  | Ev.onIsFetching _ => true
  | _ => false

/-- Whether an event is an `onError` invocation. -/
def isErrorEv {ε : Type} : Ev ε → Bool
  | Ev.onError _ => true
  | _ => false

@[simp] theorem mget_nil {α : Type} (k : String) : mget ([] : List (String × α)) k = none := rfl

theorem mget_mset_self {α : Type} (m : List (String × α)) (k : String) (v : α) :
    mget (mset m k v) k = some v := by
  induction m with
  | nil => simp [mget, mset]
  | cons hd tl ih =>
    obtain ⟨k', v'⟩ := hd
    by_cases h : k' = k <;> simp [mget, mset, h, ih]

theorem mget_mset_ne {α : Type} (m : List (String × α)) (k k' : String) (v : α)
    (h : k ≠ k') : mget (mset m k v) k' = mget m k' := by
  induction m with
  | nil => simp [mget, mset, h]
  | cons hd tl ih =>
    obtain ⟨k'', v''⟩ := hd
    by_cases h2 : k'' = k
    · subst h2
      simp [mget, mset, h]
    · simp only [mset, if_neg h2]
      by_cases h3 : k'' = k' <;> simp [mget, h3, ih]

theorem mget_mdel_ne {α : Type} (m : List (String × α)) (k k' : String)
    (h : k ≠ k') : mget (mdel m k) k' = mget m k' := by
  induction m with
  | nil => simp [mdel]
  | cons hd tl ih =>
    obtain ⟨k'', v''⟩ := hd
    by_cases h2 : k'' = k
    · subst h2
      simp [mdel, mget, h]
    · simp only [mdel, if_neg h2]
      by_cases h3 : k'' = k' <;> simp [mget, h3, ih]


/-- C2 (amended): for every orchestrator call where `cache.get(key)` returns
an entry whose data is present **and truthy**, `onData` is invoked with that
cached data immediately, synchronously, exactly once before anything else;
and if the entry is additionally not stale, the call completes there: the
fetch operation is never invoked, no fetching-state callback fires, and the
store is not written. -/
theorem queryWithCache_truthy_hit {σ ε : Type} (iface : CacheIface σ) (cache : σ)
    (queryKey : List String) (cet cst : Option Int) (queryFn : Except ε Json)
    (hif herr : Bool) (dv : Json) (st : Bool)
    (hget : iface.get cache queryKey = (some dv, st))
    (htruthy : jsTruthy (some dv) = true) :
    (queryWithCache iface queryKey cet cst cache queryFn hif herr).1.head? =
        some (Ev.onData dv) ∧
      (st = false →
        queryWithCache iface queryKey cet cst cache queryFn hif herr =
          ([Ev.onData dv], Except.ok (), cache)) := by
  unfold queryWithCache
  rw [hget]
  simp only [htruthy, jsonOfCached, Option.getD_some, Bool.not_true, Bool.false_and]
  cases st with
  | false => simp
  | true =>
    refine ⟨?_, by simp⟩
    cases queryFn with
    | ok r => simp
    | error e => cases herr <;> simp

/-- Witness for C2 (amended) at a concrete fresh truthy hit. -/
theorem queryWithCache_truthy_hit_witness :
    (queryWithCache (CacheStoreInMemory.iface ⟨none, none⟩ 7 7 0) ["t"] none none
          [("t", CacheStoreInMemory.Val.tree
              [("cacheEntry", CacheStoreInMemory.Val.entry ⟨Json.str "cached", 0, 1000, 1000⟩)])]
          (Except.ok (Json.str "new") : Except Unit Json) true true).1.head? =
        some (Ev.onData (Json.str "cached")) ∧
      (false = false →
        queryWithCache (CacheStoreInMemory.iface ⟨none, none⟩ 7 7 0) ["t"] none none
            [("t", CacheStoreInMemory.Val.tree
                [("cacheEntry", CacheStoreInMemory.Val.entry ⟨Json.str "cached", 0, 1000, 1000⟩)])]
            (Except.ok (Json.str "new") : Except Unit Json) true true =
          ([Ev.onData (Json.str "cached")], Except.ok (),
            [("t", CacheStoreInMemory.Val.tree
                [("cacheEntry", CacheStoreInMemory.Val.entry ⟨Json.str "cached", 0, 1000, 1000⟩)])])) :=
  queryWithCache_truthy_hit _ _ _ _ _ _ _ _ _ _ rfl rfl

/-- C2 is false as stated: with the in-memory backend holding the present,
fresh entry `0` at key `["t"]`, `get` returns `{data: 0, stale: false}` (data
present), yet the call's event trace shows `onData` is never invoked with the
cached data, the fetch operation runs, the fetching-state callback fires, and
the store is written — the code tests JS truthiness of the data
(`!cacheEntry.data`), not presence. -/
theorem queryWithCache_present_falsy_counterexample :
    CacheStoreInMemory.get
        [("t", CacheStoreInMemory.Val.tree
            [("cacheEntry", CacheStoreInMemory.Val.entry ⟨Json.num 0, 0, 1000, 1000⟩)])]
        ["t"] 0 = (some (Json.num 0), false) ∧
      (queryWithCache (CacheStoreInMemory.iface ⟨none, none⟩ 7 7 0) ["t"] none none
          [("t", CacheStoreInMemory.Val.tree
              [("cacheEntry", CacheStoreInMemory.Val.entry ⟨Json.num 0, 0, 1000, 1000⟩)])]
          (Except.ok (Json.num 7) : Except Unit Json) true true).1 =
        [Ev.onIsFetching true, Ev.fetchStart, Ev.onData (Json.num 7),
          Ev.cacheSet ⟨["t"], Json.num 7, none, none⟩, Ev.onIsFetching false] := by
  refine ⟨rfl, ?_⟩
  simp [queryWithCache, CacheStoreInMemory.iface, CacheStoreInMemory.get,
    CacheStoreInMemory.readNode, CacheStoreInMemory.getNode, mget,
    CacheStoreInMemory.marker, jsTruthy, jsonOfCached, isEqualJson]

/-- C3 (amended): if the initial cache read found **truthy** data, the
fetching-state callback is never invoked at all; if the read found no truthy
data (a miss, or falsy data) and `onIsFetching` was supplied, it fires with
`true` exactly once before the fetch operation is invoked and with `false`
exactly once after the fetch settles, on every exit path; and in the
failure-with-no-error-callback case the `false` call is in the trace while
the call itself rejects (the `finally` block runs before the error
surfaces). -/
theorem queryWithCache_fetching_callback {σ ε : Type} (iface : CacheIface σ) (cache : σ)
    (queryKey : List String) (cet cst : Option Int) (queryFn : Except ε Json)
    (hif herr : Bool) (d : Option Json) (st : Bool)
    (hget : iface.get cache queryKey = (d, st)) :
    (jsTruthy d = true →
        (queryWithCache iface queryKey cet cst cache queryFn hif herr).1.countP
          isFetchingEv = 0) ∧
      (jsTruthy d = false → hif = true →
        ∃ mid, (queryWithCache iface queryKey cet cst cache queryFn hif herr).1 =
            Ev.onIsFetching true :: Ev.fetchStart :: (mid ++ [Ev.onIsFetching false]) ∧
          mid.countP isFetchingEv = 0) ∧
      (∀ e : ε, jsTruthy d = false → herr = false → queryFn = Except.error e →
        (queryWithCache iface queryKey cet cst cache queryFn hif herr).2.1 =
          Except.error e) := by
  unfold queryWithCache
  rw [hget]
  refine ⟨?_, ?_, ?_⟩
  · intro ht
    simp only [ht, Bool.not_true, Bool.false_and, Bool.true_and]
    cases st with
    | false => simp [isFetchingEv]
    | true =>
      cases queryFn with
      | ok r =>
        cases h : isEqualJson r (jsonOfCached d) <;>
          simp [h, isFetchingEv, List.countP_append, List.countP_cons]
      | error e => cases herr <;> simp [isFetchingEv, List.countP_cons]
  · intro hf hif1
    subst hif1
    simp only [hf, Bool.not_false, Bool.true_and, Bool.and_false, Bool.false_and]
    cases queryFn with
    | ok r =>
      cases h : isEqualJson r (jsonOfCached d) with
      | false =>
        refine ⟨[Ev.onData r, Ev.cacheSet ⟨queryKey, r, cet, cst⟩], ?_, ?_⟩ <;>
          simp [h, isFetchingEv, List.countP_cons]
      | true =>
        refine ⟨[Ev.cacheSet ⟨queryKey, r, cet, cst⟩], ?_, ?_⟩ <;>
          simp [h, isFetchingEv, List.countP_cons]
    | error e =>
      cases herr with
      | false => exact ⟨[], by simp, by simp⟩
      | true => exact ⟨[Ev.onError e], by simp, by simp [isFetchingEv]⟩
  · intro e hf herr0 hq
    subst herr0 hq
    simp [hf]

/-- Witness for C3 (amended) at a concrete true miss with a rejecting fetch
and no error callback. -/
theorem queryWithCache_fetching_callback_witness :
    (jsTruthy none = true →
        (queryWithCache (CacheStoreInMemory.iface ⟨none, none⟩ 7 7 0) ["t"] none none
            ([] : CacheStoreInMemory.Store) (Except.error 5 : Except Nat Json) true
            false).1.countP isFetchingEv = 0) ∧
      (jsTruthy none = false → true = true →
        ∃ mid, (queryWithCache (CacheStoreInMemory.iface ⟨none, none⟩ 7 7 0) ["t"] none none
              ([] : CacheStoreInMemory.Store) (Except.error 5 : Except Nat Json) true
              false).1 =
            Ev.onIsFetching true :: Ev.fetchStart :: (mid ++ [Ev.onIsFetching false]) ∧
          mid.countP isFetchingEv = 0) ∧
      (∀ e : Nat, jsTruthy none = false → false = false →
        (Except.error 5 : Except Nat Json) = Except.error e →
        (queryWithCache (CacheStoreInMemory.iface ⟨none, none⟩ 7 7 0) ["t"] none none
            ([] : CacheStoreInMemory.Store) (Except.error 5 : Except Nat Json) true
            false).2.1 = Except.error e) :=
  queryWithCache_fetching_callback _ _ _ _ _ _ _ _ none false rfl

/-- C3 is false as stated: with the in-memory backend holding the present but
stale falsy entry `0` at `["t"]` (data present, so by the claim the
fetching-state callback must never be invoked), the trace nevertheless
contains two `onIsFetching` events — the code keys the callback on JS
truthiness of the data, not on presence. -/
theorem queryWithCache_stale_falsy_counterexample :
    CacheStoreInMemory.get
        [("t", CacheStoreInMemory.Val.tree
            [("cacheEntry", CacheStoreInMemory.Val.entry ⟨Json.num 0, 0, 10, 1000⟩)])]
        ["t"] 1000 = (some (Json.num 0), true) ∧
      (queryWithCache (CacheStoreInMemory.iface ⟨none, none⟩ 7 7 1000) ["t"] none none
          [("t", CacheStoreInMemory.Val.tree
              [("cacheEntry", CacheStoreInMemory.Val.entry ⟨Json.num 0, 0, 10, 1000⟩)])]
          (Except.ok (Json.num 7) : Except Unit Json) true true).1.countP isFetchingEv =
        2 := by
  refine ⟨rfl, ?_⟩
  simp [queryWithCache, CacheStoreInMemory.iface, CacheStoreInMemory.get,
    CacheStoreInMemory.readNode, CacheStoreInMemory.getNode, mget,
    CacheStoreInMemory.marker, jsTruthy, jsonOfCached, isEqualJson, isFetchingEv,
    List.countP_cons]

/-- C4: for every orchestrator call that reaches the fetch and whose fetch
operation fails with error `e`: if `onError` was supplied it is invoked with
`e` (exactly once) and the call resolves normally; if not, the call fails
with `e`; in both cases the store is returned unmodified and no `set` is
performed. -/
theorem queryWithCache_fetch_failure {σ ε : Type} (iface : CacheIface σ) (cache : σ)
    (queryKey : List String) (cet cst : Option Int) (hif herr : Bool)
    (d : Option Json) (st : Bool) (e : ε)
    (hget : iface.get cache queryKey = (d, st))
    (hreach : ¬(jsTruthy d = true ∧ st = false)) :
    (herr = true →
        (queryWithCache iface queryKey cet cst cache (Except.error e) hif herr).2.1 =
            Except.ok () ∧
          (queryWithCache iface queryKey cet cst cache (Except.error e) hif
              herr).1.countP isErrorEv = 1 ∧
          Ev.onError e ∈
            (queryWithCache iface queryKey cet cst cache (Except.error e) hif herr).1) ∧
      (herr = false →
        (queryWithCache iface queryKey cet cst cache (Except.error e) hif herr).2.1 =
          Except.error e) ∧
      (queryWithCache iface queryKey cet cst cache (Except.error e) hif herr).2.2 =
        cache ∧
      (∀ p, Ev.cacheSet p ∉
        (queryWithCache iface queryKey cet cst cache (Except.error e) hif herr).1) := by
  have hcond : (jsTruthy d && !st) = false := by
    cases h1 : jsTruthy d <;> cases st <;> simp_all
  unfold queryWithCache
  rw [hget]
  simp only [hcond, Bool.false_eq_true, if_false]
  cases herr <;> cases h1 : jsTruthy d <;> cases hif <;>
    simp [isErrorEv, List.countP_cons, List.countP_append]

/-- C5: for every orchestrator call that reaches the fetch and whose fetch
operation succeeds with result `r`: after the fetch starts, `onData` fires
exactly once if `r` differs from the step-1 cache data under the deep value
equality `isEqualJson`, and not at all otherwise — and every `onData` fired
after the fetch carries exactly the new result `r`; and regardless, `r` is
written into the cache via `set` with the caller's staleTime/cacheTime
overrides. -/
theorem queryWithCache_fetch_success {σ ε : Type} (iface : CacheIface σ) (cache : σ)
    (queryKey : List String) (cet cst : Option Int) (hif herr : Bool)
    (d : Option Json) (st : Bool) (r : Json)
    (hget : iface.get cache queryKey = (d, st))
    (hreach : ¬(jsTruthy d = true ∧ st = false)) :
    (queryWithCache iface queryKey cet cst cache (Except.ok r : Except ε Json) hif herr).2.2 =
        iface.set cache ⟨queryKey, r, cet, cst⟩ ∧
      (Ev.cacheSet ⟨queryKey, r, cet, cst⟩ : Ev ε) ∈
        (queryWithCache iface queryKey cet cst cache (Except.ok r : Except ε Json) hif herr).1 ∧
      ∃ pre post : List (Ev ε),
        (queryWithCache iface queryKey cet cst cache (Except.ok r : Except ε Json) hif herr).1 =
            pre ++ Ev.fetchStart :: post ∧
          post.countP isDataEv =
            (if isEqualJson r (jsonOfCached d) = true then 0 else 1) ∧
          (∀ v : Json, Ev.onData v ∈ post → v = r) := by
  have hcond : (jsTruthy d && !st) = false := by
    cases h1 : jsTruthy d <;> cases st <;> simp_all
  unfold queryWithCache
  rw [hget]
  simp only [hcond, Bool.false_eq_true, if_false]
  refine ⟨by simp, by simp, ?_⟩
  refine ⟨(if jsTruthy d = true then [Ev.onData (jsonOfCached d)] else []) ++
      (if (!jsTruthy d && hif) = true then [Ev.onIsFetching true] else []),
    (if isEqualJson r (jsonOfCached d) = true then ([] : List (Ev ε)) else [Ev.onData r]) ++
      Ev.cacheSet ⟨queryKey, r, cet, cst⟩ ::
        (if (!jsTruthy d && hif) = true then [Ev.onIsFetching false] else []), ?_, ?_, ?_⟩ <;>
    cases h1 : jsTruthy d <;> cases hif <;> cases h2 : isEqualJson r (jsonOfCached d) <;>
      simp [h1, h2, isDataEv, List.countP_cons, List.countP_append]

/-- Witness for C4 at a concrete miss with a rejecting fetch and an error
callback. -/
theorem queryWithCache_fetch_failure_witness :
    (true = true →
        (queryWithCache (CacheStoreInMemory.iface ⟨none, none⟩ 7 7 0) ["t"] none none
            ([] : CacheStoreInMemory.Store) (Except.error 3) false true).2.1 =
            Except.ok () ∧
          (queryWithCache (CacheStoreInMemory.iface ⟨none, none⟩ 7 7 0) ["t"] none none
              ([] : CacheStoreInMemory.Store) (Except.error 3) false
              true).1.countP isErrorEv = 1 ∧
          Ev.onError 3 ∈
            (queryWithCache (CacheStoreInMemory.iface ⟨none, none⟩ 7 7 0) ["t"] none none
              ([] : CacheStoreInMemory.Store) (Except.error 3) false true).1) ∧
      (true = false →
        (queryWithCache (CacheStoreInMemory.iface ⟨none, none⟩ 7 7 0) ["t"] none none
            ([] : CacheStoreInMemory.Store) (Except.error 3) false true).2.1 =
          Except.error 3) ∧
      (queryWithCache (CacheStoreInMemory.iface ⟨none, none⟩ 7 7 0) ["t"] none none
          ([] : CacheStoreInMemory.Store) (Except.error 3) false true).2.2 =
        ([] : CacheStoreInMemory.Store) ∧
      (∀ p, Ev.cacheSet p ∉
        (queryWithCache (CacheStoreInMemory.iface ⟨none, none⟩ 7 7 0) ["t"] none none
          ([] : CacheStoreInMemory.Store) (Except.error (3 : Nat)) false true).1) :=
  queryWithCache_fetch_failure _ _ _ _ _ _ _ none false 3 rfl (by decide)

/-- Witness for C5 at a concrete miss with a fetch resolving to a fresh
value. -/
theorem queryWithCache_fetch_success_witness :
    (queryWithCache (CacheStoreInMemory.iface ⟨none, none⟩ 7 7 0) ["t"] none none
          ([] : CacheStoreInMemory.Store) (Except.ok (Json.str "x") : Except Nat Json)
          true false).2.2 =
        (CacheStoreInMemory.iface ⟨none, none⟩ 7 7 0).set ([] : CacheStoreInMemory.Store)
          ⟨["t"], Json.str "x", none, none⟩ ∧
      (Ev.cacheSet ⟨["t"], Json.str "x", none, none⟩ : Ev Nat) ∈
        (queryWithCache (CacheStoreInMemory.iface ⟨none, none⟩ 7 7 0) ["t"] none none
          ([] : CacheStoreInMemory.Store) (Except.ok (Json.str "x") : Except Nat Json)
          true false).1 ∧
      ∃ pre post : List (Ev Nat),
        (queryWithCache (CacheStoreInMemory.iface ⟨none, none⟩ 7 7 0) ["t"] none none
            ([] : CacheStoreInMemory.Store) (Except.ok (Json.str "x") : Except Nat Json)
            true false).1 = pre ++ Ev.fetchStart :: post ∧
          post.countP isDataEv =
            (if isEqualJson (Json.str "x") (jsonOfCached none) = true then 0 else 1) ∧
          (∀ v : Json, Ev.onData v ∈ post → v = Json.str "x") :=
  queryWithCache_fetch_success _ _ _ _ _ _ _ none false (Json.str "x") rfl (by decide)

/-- C9: for every orchestrator call on a key with no cache entry (`get`
returns data `null`) whose fetch operation resolves to a value deep-equal to
`null`, `onData` is never invoked during the entire call, even though the
resolved value is still written into the cache via `set`. -/
theorem queryWithCache_null_result {σ ε : Type} (iface : CacheIface σ) (cache : σ)
    (queryKey : List String) (cet cst : Option Int) (hif herr : Bool)
    (st : Bool) (r : Json)
    (hget : iface.get cache queryKey = (none, st))
    (hnull : isEqualJson r Json.null = true) :
    (queryWithCache iface queryKey cet cst cache (Except.ok r : Except ε Json) hif
          herr).1.countP isDataEv = 0 ∧
      (Ev.cacheSet ⟨queryKey, r, cet, cst⟩ : Ev ε) ∈
        (queryWithCache iface queryKey cet cst cache (Except.ok r : Except ε Json) hif
          herr).1 ∧
      (queryWithCache iface queryKey cet cst cache (Except.ok r : Except ε Json) hif
          herr).2.2 = iface.set cache ⟨queryKey, r, cet, cst⟩ := by
  unfold queryWithCache
  rw [hget]
  simp only [jsTruthy, jsonOfCached, Option.getD_none, hnull, Bool.false_and,
    Bool.false_eq_true, if_false, Bool.not_false, Bool.true_and, if_true]
  cases hif <;> simp [isDataEv, List.countP_cons, List.countP_append]

/-- Witness for C9 at a concrete miss with the fetch resolving to `null`. -/
theorem queryWithCache_null_result_witness :
    (queryWithCache (CacheStoreInMemory.iface ⟨none, none⟩ 7 7 0) ["t"] none none
          ([] : CacheStoreInMemory.Store) (Except.ok Json.null : Except Nat Json) true
          true).1.countP isDataEv = 0 ∧
      (Ev.cacheSet ⟨["t"], Json.null, none, none⟩ : Ev Nat) ∈
        (queryWithCache (CacheStoreInMemory.iface ⟨none, none⟩ 7 7 0) ["t"] none none
          ([] : CacheStoreInMemory.Store) (Except.ok Json.null : Except Nat Json) true
          true).1 ∧
      (queryWithCache (CacheStoreInMemory.iface ⟨none, none⟩ 7 7 0) ["t"] none none
          ([] : CacheStoreInMemory.Store) (Except.ok Json.null : Except Nat Json) true
          true).2.2 =
        (CacheStoreInMemory.iface ⟨none, none⟩ 7 7 0).set ([] : CacheStoreInMemory.Store)
          ⟨["t"], Json.null, none, none⟩ :=
  queryWithCache_null_result _ _ _ _ _ _ _ _ Json.null rfl (by simp [isEqualJson])


namespace CacheStoreInMemory

theorem wfMap_mget {m : List (String × Val)} {k : String} {v : Val}
    (hwf : wfMap m = true) (h : mget m k = some v) : wfVal v = true := by
  induction m with
  | nil => simp [mget] at h
  | cons hd tl ih =>
    obtain ⟨k', v'⟩ := hd
    simp only [wfMap, Bool.and_eq_true] at hwf
    by_cases hk : k' = k
    · simp only [mget, if_pos hk] at h
      cases h
      exact hwf.1.2
    · simp only [mget, if_neg hk] at h
      exact ih hwf.2 h

theorem wfMap_entry_marker {m : List (String × Val)} {k : String} {e : CacheEntry}
    (hwf : wfMap m = true) (h : mget m k = some (Val.entry e)) : k = marker := by
  induction m with
  | nil => simp [mget] at h
  | cons hd tl ih =>
    obtain ⟨k', v'⟩ := hd
    simp only [wfMap, Bool.and_eq_true] at hwf
    by_cases hk : k' = k
    · simp only [mget, if_pos hk] at h
      cases h
      have hm := hwf.1.1.2
      simp only [beq_iff_eq] at hm
      exact hk ▸ hm
    · simp only [mget, if_neg hk] at h
      exact ih hwf.2 h

end CacheStoreInMemory


namespace CacheStoreInMemory

theorem getNode_none (K : List String) : getNode none K = none := by
  cases K <;> rfl

theorem wfMap_mdel_self {m : List (String × Val)} (k : String)
    (hwf : wfMap m = true) : mget (mdel m k) k = none := by
  induction m with
  | nil => rfl
  | cons hd tl ih =>
    obtain ⟨k', v'⟩ := hd
    simp only [wfMap, Bool.and_eq_true] at hwf
    by_cases hk : k' = k
    · subst hk
      have hns := hwf.1.1.1
      rw [Bool.not_eq_true'] at hns
      have hnone : mget tl k' = none := by
        cases hcase : mget tl k' with
        | none => rfl
        | some w => rw [hcase] at hns; simp at hns
      simpa [mdel] using hnone
    · simp only [mdel, if_neg hk, mget, if_neg hk]
      exact ih hwf.2

theorem wfVal_tree {m : List (String × Val)} (h : wfVal (Val.tree m) = true) :
    wfMap m = true := by
  simpa [wfVal] using h

/-- Hierarchical invalidation on the in-memory store, characterised against
`get`: deleting the binding at path `pre ++ [last]` makes `get` miss at that
key and at every extension of it, and leaves the result of `get` at every
other key unchanged (for keys avoiding the reserved `"cacheEntry"` segment,
on a well-formed store). -/
theorem delAtPath_get (pre : List String) (last : String) :
    ∀ (m : List (String × Val)) (K' : List String) (now : Int),
      wfMap m = true → marker ∉ pre → last ≠ marker → marker ∉ K' →
      (((pre ++ [last]) <+: K' →
          get (delAtPath m pre last) K' now = (none, false)) ∧
        (¬(pre ++ [last]) <+: K' →
          get (delAtPath m pre last) K' now = get m K' now)) := by
  induction pre with
  | nil =>
    intro m K' now hwf hpre hlast hK'
    simp only [List.nil_append, delAtPath]
    cases K' with
    | nil =>
      constructor
      · intro hp
        exact absurd (List.eq_nil_of_prefix_nil hp) (by simp)
      · intro _
        simp only [get, getNode, readNode]
        rw [mget_mdel_ne _ _ _ hlast]
    | cons q K'' =>
      by_cases hq : last = q
      · subst hq
        constructor
        · intro _
          simp only [get, getNode]
          rw [wfMap_mdel_self last hwf, getNode_none]
          rfl
        · intro hp
          exact absurd ⟨K'', rfl⟩ hp
      · constructor
        · intro hp
          rw [List.cons_prefix_cons] at hp
          exact absurd hp.1 hq
        · intro _
          simp only [get, getNode]
          rw [mget_mdel_ne _ _ _ hq]
  | cons p pre' ih =>
    intro m K' now hwf hpre hlast hK'
    have hp_ne : p ≠ marker := fun h => hpre (h ▸ List.mem_cons_self p pre')
    have hpre' : marker ∉ pre' := fun h => hpre (List.mem_cons_of_mem p h)
    rw [List.cons_append]
    cases hmp : mget m p with
    | none =>
      have hLHS : delAtPath m (p :: pre') last = m := by
        simp only [delAtPath, hmp]
      rw [hLHS]
      constructor
      · intro hp
        cases K' with
        | nil => exact absurd (List.eq_nil_of_prefix_nil hp) (by simp)
        | cons q K'' =>
          rw [List.cons_prefix_cons] at hp
          obtain ⟨rfl, -⟩ := hp
          simp only [get, getNode, hmp]
          rw [getNode_none]
          rfl
      · intro _
        rfl
    | some v =>
      cases v with
      | entry e => exact absurd (wfMap_entry_marker hwf hmp) hp_ne
      | tree m2 =>
        have hwf2 : wfMap m2 = true := wfVal_tree (wfMap_mget hwf hmp)
        have hLHS : delAtPath m (p :: pre') last =
            mset m p (Val.tree (delAtPath m2 pre' last)) := by
          simp only [delAtPath, hmp]
        rw [hLHS]
        cases K' with
        | nil =>
          constructor
          · intro hp
            exact absurd (List.eq_nil_of_prefix_nil hp) (by simp)
          · intro _
            simp only [get, getNode, readNode]
            rw [mget_mset_ne _ _ _ _ hp_ne]
        | cons q K'' =>
          by_cases hqp : p = q
          · subst hqp
            have hK'' : marker ∉ K'' := fun h => hK' (List.mem_cons_of_mem _ h)
            have hih := ih m2 K'' now hwf2 hpre' hlast hK''
            constructor
            · intro hp
              rw [List.cons_prefix_cons] at hp
              have h1 := hih.1 hp.2
              simp only [get, getNode]
              rw [mget_mset_self]
              exact h1
            · intro hp
              have hnp : ¬(pre' ++ [last]) <+: K'' := fun hh =>
                hp (List.cons_prefix_cons.mpr ⟨rfl, hh⟩)
              have h2 := hih.2 hnp
              simp only [get, getNode]
              rw [mget_mset_self, hmp]
              exact h2
          · constructor
            · intro hp
              rw [List.cons_prefix_cons] at hp
              exact absurd hp.1 hqp
            · intro _
              simp only [get, getNode]
              rw [mget_mset_ne _ _ _ _ hqp]

end CacheStoreInMemory

namespace CacheStoreInMemory

/-- The in-memory backend's half of the invalidation claim: for every
well-formed store and non-empty key `K` (keys avoiding the reserved
`"cacheEntry"` segment), `invalidate K` makes `get` miss at `K` and at every
key extending `K`, and leaves `get` unchanged at every other key. -/
theorem invalidate_prefix_semantics (S : Store) (K K' : List String) (now : Int)
    (hwf : wfMap S = true) (hK : K ≠ []) (hKm : marker ∉ K) (hK'm : marker ∉ K') :
    (K <+: K' → get (invalidate S K) K' now = (none, false)) ∧
      (¬K <+: K' → get (invalidate S K) K' now = get S K' now) := by
  obtain hnil | ⟨pre, last, rfl⟩ := List.eq_nil_or_concat' K
  · exact absurd hnil hK
  · have hpre : marker ∉ pre := fun h => hKm (List.mem_append.mpr (Or.inl h))
    have hlast : last ≠ marker := fun h =>
      hKm (List.mem_append.mpr (Or.inr (h ▸ List.mem_singleton_self _)))
    have hinv : invalidate S (pre ++ [last]) = delAtPath S pre last := by
      have hne : pre ++ [last] ≠ [] := by simp
      simp only [invalidate, if_neg hne, List.dropLast_concat, List.getLastD_concat]
    rw [hinv]
    exact delAtPath_get pre last S K' now hwf hpre hlast hK'm

end CacheStoreInMemory

/-- Witness for the in-memory invalidation theorem at a concrete store with
an entry at `["a"]`, `["a","b"]`, `["a","b","c"]` and a sibling `["x"]`. -/
theorem invalidate_prefix_semantics_witness :
    (["a", "b"] <+: ["a", "b", "c"] →
        CacheStoreInMemory.get
            (CacheStoreInMemory.invalidate
              [("a", CacheStoreInMemory.Val.tree
                  [("cacheEntry", CacheStoreInMemory.Val.entry ⟨Json.str "v1", 0, 5, 5⟩),
                   ("b", CacheStoreInMemory.Val.tree
                      [("cacheEntry", CacheStoreInMemory.Val.entry ⟨Json.str "v2", 0, 5, 5⟩),
                       ("c", CacheStoreInMemory.Val.tree
                          [("cacheEntry", CacheStoreInMemory.Val.entry ⟨Json.str "v3", 0, 5, 5⟩)])])]),
               ("x", CacheStoreInMemory.Val.tree
                  [("cacheEntry", CacheStoreInMemory.Val.entry ⟨Json.str "v4", 0, 5, 5⟩)])]
              ["a", "b"])
            ["a", "b", "c"] 0 = (none, false)) ∧
      (¬["a", "b"] <+: ["a", "b", "c"] →
        CacheStoreInMemory.get
            (CacheStoreInMemory.invalidate
              [("a", CacheStoreInMemory.Val.tree
                  [("cacheEntry", CacheStoreInMemory.Val.entry ⟨Json.str "v1", 0, 5, 5⟩),
                   ("b", CacheStoreInMemory.Val.tree
                      [("cacheEntry", CacheStoreInMemory.Val.entry ⟨Json.str "v2", 0, 5, 5⟩),
                       ("c", CacheStoreInMemory.Val.tree
                          [("cacheEntry", CacheStoreInMemory.Val.entry ⟨Json.str "v3", 0, 5, 5⟩)])])]),
               ("x", CacheStoreInMemory.Val.tree
                  [("cacheEntry", CacheStoreInMemory.Val.entry ⟨Json.str "v4", 0, 5, 5⟩)])]
              ["a", "b"])
            ["a", "b", "c"] 0 =
          CacheStoreInMemory.get
            [("a", CacheStoreInMemory.Val.tree
                [("cacheEntry", CacheStoreInMemory.Val.entry ⟨Json.str "v1", 0, 5, 5⟩),
                 ("b", CacheStoreInMemory.Val.tree
                    [("cacheEntry", CacheStoreInMemory.Val.entry ⟨Json.str "v2", 0, 5, 5⟩),
                     ("c", CacheStoreInMemory.Val.tree
                        [("cacheEntry", CacheStoreInMemory.Val.entry ⟨Json.str "v3", 0, 5, 5⟩)])])]),
             ("x", CacheStoreInMemory.Val.tree
                [("cacheEntry", CacheStoreInMemory.Val.entry ⟨Json.str "v4", 0, 5, 5⟩)])]
            ["a", "b", "c"] 0) :=
  CacheStoreInMemory.invalidate_prefix_semantics _ _ _ _
    (by simp [CacheStoreInMemory.wfMap, CacheStoreInMemory.wfVal, mget,
      CacheStoreInMemory.marker])
    (by simp) (by simp [CacheStoreInMemory.marker]) (by simp [CacheStoreInMemory.marker])

/-- C1 fails on the flat backend (code bug): starting from the empty store,
`set` at `["a","b"]` and `["a","b","c"]`, then `invalidate ["a","b"]`.  The
code's own comment says every descendant must be removed, but the
hierarchical filter compares against the JS coercion `path + ":"`, which
joins the key *array* with commas (`"a,b:"`), so the descendant record
`"a:b:c"` survives and is still returned by `get`, while only the exact
record `"a:b"` is removed. -/
theorem flat_invalidate_descendant_survives :
    CacheStoreMMKV.invalidate
        (CacheStoreMMKV.set
          (CacheStoreMMKV.set [] ["a", "b"] (Json.str "v1") none none ⟨none, none⟩ 5 5 0)
          ["a", "b", "c"] (Json.str "v2") none none ⟨none, none⟩ 5 5 0)
        ["a", "b"] =
      [("a:b:c", CacheStoreMMKV.entryToJson ⟨Json.str "v2", 0, 5, 5⟩)] ∧
      CacheStoreMMKV.get
        (CacheStoreMMKV.invalidate
          (CacheStoreMMKV.set
            (CacheStoreMMKV.set [] ["a", "b"] (Json.str "v1") none none ⟨none, none⟩ 5 5 0)
            ["a", "b", "c"] (Json.str "v2") none none ⟨none, none⟩ 5 5 0)
          ["a", "b"])
        ["a", "b", "c"] 0 = (some (Json.str "v2"), false) ∧
      CacheStoreMMKV.get
        (CacheStoreMMKV.invalidate
          (CacheStoreMMKV.set
            (CacheStoreMMKV.set [] ["a", "b"] (Json.str "v1") none none ⟨none, none⟩ 5 5 0)
            ["a", "b", "c"] (Json.str "v2") none none ⟨none, none⟩ 5 5 0)
          ["a", "b"])
        ["a", "b"] 0 = (none, false) :=
  ⟨rfl, rfl, rfl⟩

/-- C6 fails as stated: the record at key `["k"]` holds the text `"garbage"`,
which does not parse as JSON, and `get` raises the `JSON.parse` error
(`Except.error`) instead of returning the miss `{data: null, stale: false}` —
the code calls `JSON.parse(storedValue)` with no exception handling. -/
theorem flat_get_malformed_counterexample :
    Json.parse "garbage" = none ∧
      CacheStoreMMKV.getS [("k", "garbage")] ["k"] 0 = Except.error () :=
  ⟨rfl, rfl⟩

/-- C6 (amended): for the flat backend, a stored record whose value is the
empty (falsy) string is treated as a cache miss, but a record whose non-empty
value fails to parse as JSON makes `get(K)` raise the parse error rather than
return a miss. -/
theorem flat_get_malformed_record (S : List (String × String)) (key : List String)
    (s : String) (now : Int)
    (hrec : mget S (CacheStoreMMKV.keyToString key) = some s)
    (hbad : Json.parse s = none) :
    CacheStoreMMKV.getS S key now =
      if s = "" then Except.ok (none, false) else Except.error () := by
  by_cases hs : s = "" <;> simp [CacheStoreMMKV.getS, hrec, hbad, hs]

/-- Witness for C6 (amended) at the concrete malformed record `"garbage"`. -/
theorem flat_get_malformed_record_witness :
    CacheStoreMMKV.getS [("k", "garbage")] ["k"] 0 =
      if "garbage" = "" then Except.ok (none, false) else Except.error () :=
  flat_get_malformed_record [("k", "garbage")] ["k"] "garbage" 0 rfl rfl

namespace CacheStoreInMemory

/-- A successful `set` walk stores the entry so that `get` at the same key
reads it back. -/
theorem getOrCreateSet_get (K : List String) :
    ∀ (m m' : List (String × Val)) (e : CacheEntry) (now : Int),
      getOrCreateSet m K e = some m' →
      get m' K now = (some e.data, decide (now - e.timestamp > e.staleTime)) := by
  induction K with
  | nil =>
    intro m m' e now h
    simp only [getOrCreateSet, Option.some_inj] at h
    subst h
    simp only [get, getNode, readNode]
    rw [mget_mset_self]
  | cons p K' ih =>
    intro m m' e now h
    simp only [getOrCreateSet] at h
    cases hmp : mget m p with
    | none =>
      rw [hmp] at h
      rw [Option.map_eq_some'] at h
      obtain ⟨m2', h2, rfl⟩ := h
      simp only [get, getNode]
      rw [mget_mset_self]
      exact ih [] m2' e now h2
    | some v =>
      cases v with
      | entry e2 => rw [hmp] at h; cases h
      | tree m2 =>
        rw [hmp] at h
        rw [Option.map_eq_some'] at h
        obtain ⟨m2', h2, rfl⟩ := h
        simp only [get, getNode]
        rw [mget_mset_self]
        exact ih m2 m2' e now h2

end CacheStoreInMemory

/-- C7: for every non-empty key `K` and value `V`, on both backends,
executing `set(K, V)` and then `get(K)` with no time elapsed and a
non-negative resolved staleTime returns `{data: V, stale: false}`.  For the
in-memory backend the hypothesis is that `set` completed (`some S'`; on every
store whose entries lie under the reserved `"cacheEntry"` key and whose key
avoids that segment, it does). -/
theorem set_get_roundtrip (S S' : CacheStoreInMemory.Store)
    (F : CacheStoreMMKV.FlatStore) (key : List String) (V : Json)
    (st ct : Option Int) (opts : CacheOptions) (defSt defCt now : Int)
    (hkey : key ≠ [])
    (hst : 0 ≤ resolveTime st opts.defaultStaleTime defSt)
    (hmem : CacheStoreInMemory.set S key V st ct opts defSt defCt now = some S') :
    CacheStoreInMemory.get S' key now = (some V, false) ∧
      CacheStoreMMKV.get (CacheStoreMMKV.set F key V st ct opts defSt defCt now) key
        now = (some V, false) := by
  have hstale : decide (now - now > resolveTime st opts.defaultStaleTime defSt)
      = false := by
    rw [decide_eq_false_iff_not]
    rw [sub_self]
    exact not_lt.mpr hst
  constructor
  · simp only [CacheStoreInMemory.set, if_neg hkey] at hmem
    rw [CacheStoreInMemory.getOrCreateSet_get key S S' _ now hmem]
    rw [hstale]
  · simp only [CacheStoreMMKV.set, if_neg hkey, CacheStoreMMKV.get]
    rw [mget_mset_self]
    simp [CacheStoreMMKV.entryToJson, CacheStoreMMKV.getField, CacheStoreMMKV.asNum,
      mget, sub_self]
    exact hst

/-- Witness for C7 at the concrete key `["a"]` and value `"v"` on the empty
stores. -/
theorem set_get_roundtrip_witness :
    CacheStoreInMemory.get
        [("a", CacheStoreInMemory.Val.tree
            [("cacheEntry", CacheStoreInMemory.Val.entry ⟨Json.str "v", 0, 5, 9⟩)])]
        ["a"] 0 = (some (Json.str "v"), false) ∧
      CacheStoreMMKV.get
        (CacheStoreMMKV.set [] ["a"] (Json.str "v") (some 5) none ⟨none, none⟩ 7 9 0)
        ["a"] 0 = (some (Json.str "v"), false) :=
  set_get_roundtrip [] _ [] ["a"] (Json.str "v") (some 5) none ⟨none, none⟩ 7 9 0
    (by simp) (by decide) rfl

theorem mget_eq_none_of_not_mem {α : Type} (S : List (String × α)) (k : String)
    (h : k ∉ S.map Prod.fst) : mget S k = none := by
  induction S with
  | nil => rfl
  | cons hd tl ih =>
    obtain ⟨k', v'⟩ := hd
    simp only [List.map_cons, List.mem_cons] at h
    push_neg at h
    have hk : k' ≠ k := fun hh => h.1 hh.symm
    simp only [mget, if_neg hk]
    exact ih h.2

theorem mget_filter {α : Type} (p : String × α → Bool) (S : List (String × α))
    (k : String) (hnd : (S.map Prod.fst).Nodup) :
    mget (S.filter p) k =
      match mget S k with
      | some v => if p (k, v) then some v else none
      | none => none := by
  induction S with
  | nil => rfl
  | cons hd tl ih =>
    obtain ⟨k', v'⟩ := hd
    simp only [List.map_cons, List.nodup_cons] at hnd
    rw [List.filter_cons]
    by_cases hk : k' = k
    · subst hk
      cases hp : p (k', v') with
      | true =>
        simp only [hp, if_true, mget, if_pos rfl]
      | false =>
        simp only [hp, Bool.false_eq_true, if_false, mget, if_pos rfl]
        rw [ih hnd.2, mget_eq_none_of_not_mem tl k' hnd.1]
        simp [hp]
    · cases hp : p (k', v') with
      | true =>
        simp only [hp, if_true, mget, if_neg hk]
        exact ih hnd.2
      | false =>
        simp only [hp, Bool.false_eq_true, if_false, mget, if_neg hk]
        exact ih hnd.2

namespace CacheStoreInMemory

/-- One step of the sweep through a well-formed node map, seen through
`Map.get`: child maps are kept (recursively swept), expired entries are
removed, unexpired entries are kept unchanged. -/
theorem mget_cleanUpNode (now : Int) (k : String) :
    ∀ (m : List (String × Val)), wfMap m = true →
      mget (cleanUpNode now m) k =
        match mget m k with
        | some (Val.tree m2) => some (Val.tree (cleanUpNode now m2))
        | some (Val.entry e) =>
          if now - e.timestamp > e.cacheTime then none else some (Val.entry e)
        | none => none := by
  intro m
  induction m with
  | nil => intro _; simp [cleanUpNode, mget]
  | cons hd tl ih =>
    intro hwf
    obtain ⟨k', v'⟩ := hd
    simp only [wfMap, Bool.and_eq_true] at hwf
    have hwtl := hwf.2
    cases v' with
    | tree m2 =>
      simp only [cleanUpNode]
      by_cases hk : k' = k
      · subst hk
        simp [mget]
      · simp only [mget, if_neg hk]
        exact ih hwtl
    | entry e =>
      by_cases hexp : now - e.timestamp > e.cacheTime
      · simp only [cleanUpNode, if_pos hexp]
        by_cases hk : k' = k
        · subst hk
          simp only [mget, hexp]
          rw [ih hwtl]
          have hns := hwf.1.1.1
          rw [Bool.not_eq_true'] at hns
          cases hcase : mget tl k' with
          | none => simp [hcase, hexp]
          | some w => rw [hcase] at hns; simp at hns
        · simp only [mget, if_neg hk]
          exact ih hwtl
      · simp only [cleanUpNode, if_neg hexp]
        by_cases hk : k' = k
        · subst hk
          simp [mget, hexp]
        · simp only [mget, if_neg hk]
          exact ih hwtl

/-- The sweep characterised against `get`, for every key: an expired entry at
the key makes `get` miss afterwards; otherwise `get` is unchanged. -/
theorem cleanUp_get_general (K : List String) :
    ∀ (S : List (String × Val)) (now now₂ : Int), wfMap S = true →
      get (cleanUpNode now S) K now₂ =
        match entryAtPath S K with
        | some e =>
          if now - e.timestamp > e.cacheTime then (none, false) else get S K now₂
        | none => get S K now₂ := by
  induction K with
  | nil =>
    intro S now now₂ hwf
    show readNode (some (Val.tree (cleanUpNode now S))) now₂ = _
    simp only [readNode, mget_cleanUpNode now marker S hwf, entryAtPath, getNode]
    cases hm : mget S marker with
    | none => simp [hm, get, getNode, readNode]
    | some v =>
      cases v with
      | tree m2 => simp [hm, get, getNode, readNode]
      | entry e =>
        by_cases hexp : now - e.timestamp > e.cacheTime
        · simp [hm, hexp]
        · simp [hm, hexp, get, getNode, readNode]
  | cons q K' ih =>
    intro S now now₂ hwf
    show readNode (getNode (mget (cleanUpNode now S) q) K') now₂ = _
    rw [mget_cleanUpNode now q S hwf]
    cases hm : mget S q with
    | none =>
      have heap : entryAtPath S (q :: K') = none := by
        simp only [entryAtPath, getNode, hm, getNode_none]
      rw [heap]
      simp [getNode_none, get, getNode, readNode, hm]
    | some v =>
      cases v with
      | tree m2 =>
        have hwf2 : wfMap m2 = true := wfVal_tree (wfMap_mget hwf hm)
        have heap : entryAtPath S (q :: K') = entryAtPath m2 K' := by
          simp only [entryAtPath, getNode, hm]
        have hget : get S (q :: K') now₂ = get m2 K' now₂ := by
          simp only [get, getNode, hm]
        rw [heap, hget]
        exact ih m2 now now₂ hwf2
      | entry e =>
        have heap : entryAtPath S (q :: K') = none := by
          cases K' with
          | nil => simp [entryAtPath, getNode, hm]
          | cons r K'' => simp [entryAtPath, getNode, hm]
        rw [heap]
        by_cases hexp : now - e.timestamp > e.cacheTime
        · cases K' with
          | nil => simp [hexp, getNode_none, get, getNode, readNode, hm]
          | cons r K'' => simp [hexp, getNode_none, get, getNode, readNode, hm]
        · cases K' with
          | nil => simp [hexp, get, getNode, readNode, hm]
          | cons r K'' => simp [hexp, get, getNode, readNode, hm]

end CacheStoreInMemory

/-- C8: on both backends, `cleanUp()` removes exactly the entries whose
`now - timestamp > cacheTime`: afterwards `get` on each such expired key
returns `{data: null, stale: false}`, and every entry with
`now - timestamp ≤ cacheTime` is untouched — `get` returns exactly what it
returned before.  (In-memory store assumed well-formed; flat store keys
assumed unique, as the physical key-value store guarantees.) -/
theorem cleanUp_removes_expired (S : CacheStoreInMemory.Store)
    (F : CacheStoreMMKV.FlatStore) (K : List String) (e eF : CacheEntry)
    (now now₂ : Int)
    (hwf : CacheStoreInMemory.wfMap S = true)
    (hnd : (F.map Prod.fst).Nodup)
    (hmem : CacheStoreInMemory.entryAtPath S K = some e)
    (hflat : mget F (CacheStoreMMKV.keyToString K) =
      some (CacheStoreMMKV.entryToJson eF)) :
    ((now - e.timestamp > e.cacheTime →
        CacheStoreInMemory.get (CacheStoreInMemory.cleanUp S now) K now₂ =
          (none, false)) ∧
      (¬(now - e.timestamp > e.cacheTime) →
        CacheStoreInMemory.get (CacheStoreInMemory.cleanUp S now) K now₂ =
          CacheStoreInMemory.get S K now₂)) ∧
      ((now - eF.timestamp > eF.cacheTime →
        CacheStoreMMKV.get (CacheStoreMMKV.cleanUp F now) K now₂ = (none, false)) ∧
      (¬(now - eF.timestamp > eF.cacheTime) →
        CacheStoreMMKV.get (CacheStoreMMKV.cleanUp F now) K now₂ =
          CacheStoreMMKV.get F K now₂)) := by
  constructor
  · have hchar := CacheStoreInMemory.cleanUp_get_general K S now now₂ hwf
    rw [hmem] at hchar
    constructor
    · intro hexp
      rw [show CacheStoreInMemory.cleanUp S now = CacheStoreInMemory.cleanUpNode now S
        from rfl, hchar]
      simp [hexp]
    · intro hexp
      rw [show CacheStoreInMemory.cleanUp S now = CacheStoreInMemory.cleanUpNode now S
        from rfl, hchar]
      simp [hexp]
  · have hchar := mget_filter
      (fun kv =>
        match CacheStoreMMKV.asNum (CacheStoreMMKV.getField kv.2 "timestamp"),
            CacheStoreMMKV.asNum (CacheStoreMMKV.getField kv.2 "cacheTime") with
        | some ts, some ct => !decide (now - ts > ct)
        | _, _ => true)
      F (CacheStoreMMKV.keyToString K) hnd
    rw [hflat] at hchar
    constructor
    · intro hexp
      simp only [CacheStoreMMKV.get, CacheStoreMMKV.cleanUp]
      rw [hchar]
      simp [CacheStoreMMKV.entryToJson, CacheStoreMMKV.getField, CacheStoreMMKV.asNum,
        mget, hexp]
    · intro hexp
      simp only [CacheStoreMMKV.get, CacheStoreMMKV.cleanUp]
      rw [hchar]
      simp [CacheStoreMMKV.entryToJson, CacheStoreMMKV.getField, CacheStoreMMKV.asNum,
        mget, hexp, hflat]

/-- Witness for C8 at a concrete store holding one entry, swept at a time
past its `cacheTime`. -/
theorem cleanUp_removes_expired_witness :
    (((200 : Int) - 0 > 100 →
        CacheStoreInMemory.get
          (CacheStoreInMemory.cleanUp
            [("t", CacheStoreInMemory.Val.tree
                [("cacheEntry", CacheStoreInMemory.Val.entry ⟨Json.str "d", 0, 10, 100⟩)])]
            200) ["t"] 0 = (none, false)) ∧
      (¬((200 : Int) - 0 > 100) →
        CacheStoreInMemory.get
          (CacheStoreInMemory.cleanUp
            [("t", CacheStoreInMemory.Val.tree
                [("cacheEntry", CacheStoreInMemory.Val.entry ⟨Json.str "d", 0, 10, 100⟩)])]
            200) ["t"] 0 =
          CacheStoreInMemory.get
            [("t", CacheStoreInMemory.Val.tree
                [("cacheEntry", CacheStoreInMemory.Val.entry ⟨Json.str "d", 0, 10, 100⟩)])]
            ["t"] 0)) ∧
      (((200 : Int) - 0 > 100 →
        CacheStoreMMKV.get
          (CacheStoreMMKV.cleanUp
            [("t", CacheStoreMMKV.entryToJson ⟨Json.str "d", 0, 10, 100⟩)] 200)
          ["t"] 0 = (none, false)) ∧
      (¬((200 : Int) - 0 > 100) →
        CacheStoreMMKV.get
          (CacheStoreMMKV.cleanUp
            [("t", CacheStoreMMKV.entryToJson ⟨Json.str "d", 0, 10, 100⟩)] 200)
          ["t"] 0 =
          CacheStoreMMKV.get [("t", CacheStoreMMKV.entryToJson ⟨Json.str "d", 0, 10, 100⟩)]
            ["t"] 0)) :=
  cleanUp_removes_expired _ _ ["t"] ⟨Json.str "d", 0, 10, 100⟩ ⟨Json.str "d", 0, 10, 100⟩
    200 0
    (by simp [CacheStoreInMemory.wfMap, CacheStoreInMemory.wfVal, mget,
      CacheStoreInMemory.marker])
    (by simp) rfl rfl

namespace CacheStoreInMemory

/-- On a well-formed store, `set` at a key avoiding the reserved
`"cacheEntry"` segment never runs into a stored entry, so the JS walk cannot
throw. -/
theorem getOrCreateSet_isSome (K : List String) :
    ∀ (m : List (String × Val)) (e : CacheEntry),
      wfMap m = true → marker ∉ K → (getOrCreateSet m K e).isSome = true := by
  induction K with
  | nil =>
    intro m e _ _
    simp [getOrCreateSet]
  | cons p rest ih =>
    intro m e hwf hK
    have hp_ne : p ≠ marker := fun h => hK (h ▸ List.mem_cons_self p rest)
    have hrest : marker ∉ rest := fun h => hK (List.mem_cons_of_mem p h)
    simp only [getOrCreateSet]
    cases hmp : mget m p with
    | none =>
      have := ih [] e rfl hrest
      cases hcase : getOrCreateSet [] rest e with
      | none => rw [hcase] at this; simp at this
      | some m2' => simp [hcase]
    | some v =>
      cases v with
      | entry e2 => exact absurd (wfMap_entry_marker hwf hmp) hp_ne
      | tree m2 =>
        have hwf2 : wfMap m2 = true := wfVal_tree (wfMap_mget hwf hmp)
        have := ih m2 e hwf2 hrest
        cases hcase : getOrCreateSet m2 rest e with
        | none => rw [hcase] at this; simp at this
        | some m2' => simp [hcase]

/-- A subtree freshly created by `set` contains only the new key's path, so
`get` at any other key inside it misses. -/
theorem getOrCreateSet_fresh_get (K : List String) :
    ∀ (m' : List (String × Val)) (e : CacheEntry) (K₂ : List String) (now : Int),
      getOrCreateSet [] K e = some m' → marker ∉ K → K₂ ≠ K →
      get m' K₂ now = (none, false) := by
  induction K with
  | nil =>
    intro m' e K₂ now h _ hK₂
    simp only [getOrCreateSet, mset, Option.some_inj] at h
    subst h
    cases K₂ with
    | nil => exact absurd rfl hK₂
    | cons q K₂' =>
      by_cases hq : marker = q
      · subst hq
        show readNode (getNode (mget [(marker, Val.entry e)] marker) K₂') now = _
        simp only [mget, if_pos rfl]
        cases K₂' with
        | nil => rfl
        | cons r K₂'' => rfl
      · show readNode (getNode (mget [(marker, Val.entry e)] q) K₂') now = _
        simp only [mget, if_neg hq]
        rw [getNode_none]
        rfl
  | cons p rest ih =>
    intro m' e K₂ now h hK hK₂
    have hp_ne : p ≠ marker := fun hh => hK (hh ▸ List.mem_cons_self p rest)
    have hrest : marker ∉ rest := fun hh => hK (List.mem_cons_of_mem p hh)
    simp only [getOrCreateSet, mget] at h
    rw [Option.map_eq_some'] at h
    obtain ⟨m2', h2, rfl⟩ := h
    cases K₂ with
    | nil =>
      show readNode (some (Val.tree (mset [] p (Val.tree m2')))) now = _
      simp only [mset, readNode, mget]
      rw [if_neg hp_ne]
    | cons q K₂' =>
      by_cases hq : p = q
      · subst hq
        have hne' : K₂' ≠ rest := fun hh => hK₂ (by rw [hh])
        show readNode (getNode (mget (mset [] p (Val.tree m2')) p) K₂') now = _
        rw [mget_mset_self]
        exact ih m2' e K₂' now h2 hrest hne'
      · show readNode (getNode (mget (mset [] p (Val.tree m2')) q) K₂') now = _
        simp only [mset, mget]
        rw [if_neg hq, getNode_none]
        rfl

/-- Frame property of a successful `set` walk: `get` at every other key
(both keys avoiding the reserved `"cacheEntry"` segment) is unchanged. -/
theorem getOrCreateSet_frame (K₁ : List String) :
    ∀ (m m' : List (String × Val)) (e : CacheEntry) (K₂ : List String) (now : Int),
      wfMap m = true → marker ∉ K₁ → marker ∉ K₂ → K₁ ≠ K₂ →
      getOrCreateSet m K₁ e = some m' →
      get m' K₂ now = get m K₂ now := by
  induction K₁ with
  | nil =>
    intro m m' e K₂ now hwf _ hm2 hne h
    simp only [getOrCreateSet, Option.some_inj] at h
    subst h
    cases K₂ with
    | nil => exact absurd rfl hne
    | cons q K₂' =>
      have hq : marker ≠ q := fun hh => hm2 (hh ▸ List.mem_cons_self q K₂')
      show readNode (getNode (mget (mset m marker (Val.entry e)) q) K₂') now = _
      rw [mget_mset_ne _ _ _ _ hq]
      rfl
  | cons p rest ih =>
    intro m m' e K₂ now hwf hm1 hm2 hne h
    have hp_ne : p ≠ marker := fun hh => hm1 (hh ▸ List.mem_cons_self p rest)
    have hrest : marker ∉ rest := fun hh => hm1 (List.mem_cons_of_mem p hh)
    simp only [getOrCreateSet] at h
    cases hmp : mget m p with
    | some v =>
      cases v with
      | entry e2 =>
        rw [hmp] at h
        cases h
      | tree m2 =>
        rw [hmp] at h
        rw [Option.map_eq_some'] at h
        obtain ⟨m2', h2, rfl⟩ := h
        have hwf2 : wfMap m2 = true := wfVal_tree (wfMap_mget hwf hmp)
        cases K₂ with
        | nil =>
          show readNode (some (Val.tree (mset m p (Val.tree m2')))) now = _
          simp only [readNode]
          rw [mget_mset_ne _ _ _ _ hp_ne]
          rfl
        | cons q K₂' =>
          by_cases hq : p = q
          · subst hq
            have hne' : rest ≠ K₂' := fun hh => hne (by rw [hh])
            show readNode (getNode (mget (mset m p (Val.tree m2')) p) K₂') now = _
            rw [mget_mset_self]
            have := ih m2 m2' e K₂' now hwf2 hrest
              (fun hh => hm2 (List.mem_cons_of_mem p hh)) hne' h2
            rw [show readNode (getNode (some (Val.tree m2')) K₂') now
                = get m2' K₂' now from rfl, this]
            show get m2 K₂' now = readNode (getNode (mget m p) K₂') now
            rw [hmp]
            rfl
          · show readNode (getNode (mget (mset m p (Val.tree m2')) q) K₂') now = _
            rw [mget_mset_ne _ _ _ _ hq]
            rfl
    | none =>
      rw [hmp] at h
      rw [Option.map_eq_some'] at h
      obtain ⟨m2', h2, rfl⟩ := h
      cases K₂ with
      | nil =>
        show readNode (some (Val.tree (mset m p (Val.tree m2')))) now = _
        simp only [readNode]
        rw [mget_mset_ne _ _ _ _ hp_ne]
        rfl
      | cons q K₂' =>
        by_cases hq : p = q
        · subst hq
          have hne' : K₂' ≠ rest := fun hh => hne (by rw [hh])
          show readNode (getNode (mget (mset m p (Val.tree m2')) p) K₂') now = _
          rw [mget_mset_self]
          rw [show readNode (getNode (some (Val.tree m2')) K₂') now
              = get m2' K₂' now from rfl]
          rw [getOrCreateSet_fresh_get rest m2' e K₂' now h2 hrest hne']
          show (none, false) = readNode (getNode (mget m p) K₂') now
          rw [hmp, getNode_none]
          rfl
        · show readNode (getNode (mget (mset m p (Val.tree m2')) q) K₂') now = _
          rw [mget_mset_ne _ _ _ _ hq]
          rfl

end CacheStoreInMemory

/-- C10: on the in-memory store, for every two distinct non-empty keys
`K₁`, `K₂` none of whose segments is the reserved marker `"cacheEntry"`
(and a well-formed store), `set` at `K₁` succeeds and leaves the result of
`get` at `K₂` unchanged — including when one key is a strict prefix of the
other. -/
theorem set_frame (S : CacheStoreInMemory.Store) (K₁ K₂ : List String) (V : Json)
    (st ct : Option Int) (opts : CacheOptions) (defSt defCt now now₂ : Int)
    (hwf : CacheStoreInMemory.wfMap S = true)
    (h1 : K₁ ≠ []) (h2 : K₂ ≠ []) (hne : K₁ ≠ K₂)
    (hm1 : CacheStoreInMemory.marker ∉ K₁) (hm2 : CacheStoreInMemory.marker ∉ K₂) :
    ∃ S', CacheStoreInMemory.set S K₁ V st ct opts defSt defCt now = some S' ∧
      CacheStoreInMemory.get S' K₂ now₂ = CacheStoreInMemory.get S K₂ now₂ := by
  have hsome := CacheStoreInMemory.getOrCreateSet_isSome K₁ S
    { data := V
      timestamp := now
      staleTime := resolveTime st opts.defaultStaleTime defSt
      cacheTime := resolveTime ct opts.defaultCacheTime defCt } hwf hm1
  rw [Option.isSome_iff_exists] at hsome
  obtain ⟨S', hS'⟩ := hsome
  refine ⟨S', ?_, ?_⟩
  · simp only [CacheStoreInMemory.set, if_neg h1]
    exact hS'
  · exact CacheStoreInMemory.getOrCreateSet_frame K₁ S S' _ K₂ now₂ hwf hm1 hm2 hne hS'

/-- Witness for C10 at a concrete store with an entry at `["b"]`, setting the
strict extension `["b","c"]`. -/
theorem set_frame_witness :
    ∃ S', CacheStoreInMemory.set
        [("b", CacheStoreInMemory.Val.tree
            [("cacheEntry", CacheStoreInMemory.Val.entry ⟨Json.num 1, 0, 5, 5⟩)])]
        ["b", "c"] (Json.num 2) none none ⟨none, none⟩ 7 9 3 = some S' ∧
      CacheStoreInMemory.get S' ["b"] 4 =
        CacheStoreInMemory.get
          [("b", CacheStoreInMemory.Val.tree
              [("cacheEntry", CacheStoreInMemory.Val.entry ⟨Json.num 1, 0, 5, 5⟩)])]
          ["b"] 4 :=
  set_frame _ ["b", "c"] ["b"] (Json.num 2) none none ⟨none, none⟩ 7 9 3 4
    (by simp [CacheStoreInMemory.wfMap, CacheStoreInMemory.wfVal, mget,
      CacheStoreInMemory.marker])
    (by simp) (by simp) (by simp) (by decide) (by decide)
